import Mathlib

/-!
Verification of the launchpad-tools tree/relational synchronization engine.

This file gives a shallow embedding of the repository's core data model and
operations (src/db.ts, src/tiny.ts, src/operations.ts, src/ai.ts) and proves
properties about them.

Modelling conventions:
* The typed tree (`App | Page | Folder` in db.ts) is one inductive `Item`;
  the `RootFolder` of the source is a `folder` node with identity 1.
* JavaScript `null`-able strings are `Option String`; where the source
  coalesces a missing name to the empty string (`item.name ?? ''`) we use `""`.
* `Array.prototype.sort` with a comparator is embedded as the stable
  `List.insertionSort` on the corresponding total preorder (V8 sort is stable,
  so the result is the unique stable sort for the comparator).
* Fallible code (thrown exceptions) is `Except`.
* `randomUUID()` is an external effect; it is threaded as an explicit
  generator parameter `uuidGen : Nat → String`.
-/

/-- The in-memory tree node type of db.ts (`App | Page | Folder`). -/
inductive Item where
  | app (id : Nat) (bundle_id : String) (name : String)
  | page (id : Nat) (children : List Item)
  | folder (id : Nat) (name : String) (children : List Item)

/-- The identity of a node (field `id` in db.ts). -/
def Item.itemId : Item → Nat
  | .app i _ _ => i
  | .page i _ => i
  | .folder i _ _ => i

/-- Display name of a node; the source's `item.name` with the page case
(`null`, coalesced to the empty string at every use site we embed). -/
def Item.getName : Item → String
  | .app _ _ n => n
  | .page _ _ => ""
  | .folder _ n _ => n

/-- Child list of a node (apps are leaves). -/
def Item.childList : Item → List Item
  | .app _ _ _ => []
  | .page _ ch => ch
  | .folder _ _ ch => ch

/-- `itemIsGroup` of db.ts: pages and folders are groups. -/
def Item.isGroup : Item → Bool
  | .app _ _ _ => false
  | .page _ _ => true
  | .folder _ _ _ => true

mutual
/-- `collectApps` of operations.ts: walk the group and collect every node of
kind `app`, in the depth-first pre-order used by `walkGroup` of db.ts. -/
def collectApps : Item → List Item
  | .app _ _ _ => []
  | .page _ ch => collectAppsList ch
  | .folder _ _ ch => collectAppsList ch

/-- Collection step of `collectApps` over a child list: the walker pushes an
app child itself, and recurses into group children. -/
def collectAppsList : List Item → List Item
  | [] => []
  | c :: cs =>
    (match c with
     | .app i b n => [Item.app i b n]
     | .page _ ch => collectAppsList ch
     | .folder _ _ ch => collectAppsList ch) ++ collectAppsList cs
end

mutual
/-- All proper descendants of a node (every node strictly below it). -/
def subItems : Item → List Item
  | .app _ _ _ => []
  | .page _ ch => subItemsList ch
  | .folder _ _ ch => subItemsList ch

/-- Descendant collection over a child list. -/
def subItemsList : List Item → List Item
  | [] => []
  | c :: cs => c :: (subItems c ++ subItemsList cs)
end

/-- Distinct elements of a list in first-occurrence order; the contents of the
JavaScript `new Set(list)` in iteration order. -/
def uniq : List String → List String
  | [] => []
  | x :: xs => x :: (uniq xs).erase x

/-- The `VerifyError` of db.ts, split by which message was thrown:
`duplicate` for "有些App出现多次", `mismatch` for "App数量不匹配". -/
inductive VerifyError where
  | duplicate (names : List String)
  | mismatch (unexpected : List String) (missing : List String)
deriving DecidableEq, Repr

/-- `verifyRoot` of db.ts: first fail if some candidate app name occurs more
than once, then fail if the reference and candidate app counts differ
(carrying the two set differences), otherwise succeed. -/
def verifyRoot (oldApps : List Item) (root : Item) : Except VerifyError Unit :=
  let newApps := collectApps root
  let newNames := newApps.map Item.getName
  let oldNames := oldApps.map Item.getName
  let newAppSet := uniq newNames
  let oldAppSet := uniq oldNames
  if newApps.length ≠ newAppSet.length then
    .error (.duplicate (newAppSet.foldl (fun l n => l.erase n) newNames))
  else if oldApps.length ≠ newApps.length then
    .error (.mismatch (newAppSet.filter (fun n => decide (n ∉ oldAppSet)))
      (oldAppSet.filter (fun n => decide (n ∉ newAppSet))))
  else
    .ok ()

theorem mem_uniq {a : String} : ∀ {l : List String}, a ∈ uniq l ↔ a ∈ l
  | [] => Iff.rfl
  | x :: xs => by
    by_cases hax : a = x
    · subst hax
      simp [uniq]
    · simp only [uniq, List.mem_cons, hax, false_or]
      rw [List.mem_erase_of_ne hax, mem_uniq]

theorem uniq_length_le : ∀ l : List String, (uniq l).length ≤ l.length
  | [] => Nat.le_refl _
  | x :: xs => by
    simp only [uniq, List.length_cons]
    have h := (List.erase_sublist x (uniq xs)).length_le
    have := uniq_length_le xs
    omega

theorem uniq_length_eq_iff : ∀ {l : List String}, (uniq l).length = l.length ↔ l.Nodup
  | [] => by simp [uniq]
  | x :: xs => by
    simp only [uniq, List.length_cons, List.nodup_cons]
    by_cases hx : x ∈ xs
    · have hxu : x ∈ uniq xs := mem_uniq.mpr hx
      rw [List.length_erase_of_mem hxu]
      have h1 : 0 < (uniq xs).length := List.length_pos_of_mem hxu
      have h2 := uniq_length_le xs
      constructor
      · intro h; omega
      · intro h; exact absurd hx h.1
    · have hxu : x ∉ uniq xs := fun hm => hx (mem_uniq.mp hm)
      rw [List.erase_of_not_mem hxu]
      constructor
      · intro h
        exact ⟨hx, uniq_length_eq_iff.mp (by omega)⟩
      · intro h
        have := uniq_length_eq_iff.mpr h.2
        omega

/-- C1 (amended): `verifyRoot` succeeds exactly when the candidate app names
are duplicate-free and the candidate app count equals the reference app
count; set equality beyond cardinality is not checked. -/
theorem verifyRoot_ok_iff (oldApps : List Item) (root : Item) :
    verifyRoot oldApps root = .ok () ↔
      ((collectApps root).map Item.getName).Nodup ∧
        oldApps.length = (collectApps root).length := by
  have hlen : ((collectApps root).map Item.getName).length = (collectApps root).length :=
    List.length_map _ _
  simp only [verifyRoot]
  split
  · next h1 =>
    refine iff_of_false (fun h => Except.noConfusion h) (fun h => h1 ?_)
    have := uniq_length_eq_iff.mpr h.1
    omega
  · next h1 =>
    push_neg at h1
    have hnodup : ((collectApps root).map Item.getName).Nodup :=
      uniq_length_eq_iff.mp (by omega)
    split
    · next h2 =>
      exact iff_of_false (fun h => Except.noConfusion h) (fun h => h2 h.2)
    · next h2 =>
      push_neg at h2
      exact iff_of_true rfl ⟨hnodup, h2⟩

/-- Reference app list for the C1 counterexample: apps named A and B. -/
def oldAppsC1 : List Item := [.app 2 "b1" "A", .app 3 "b2" "B"]

/-- Candidate tree for the C1 counterexample: duplicate-free apps named A and
C, a different name set of the same size as the reference. -/
def rootC1 : Item := .folder 1 "root" [.page 0 [.app 0 "c1" "A", .app 0 "c3" "C"]]

/-- C1 counterexample: a duplicate-free candidate whose name set differs from
the reference's is accepted by `verifyRoot`, because only cardinality is
compared — the claimed "succeeds iff equal as sets" biconditional fails. -/
theorem verifyRoot_accepts_set_mismatch :
    verifyRoot oldAppsC1 rootC1 = .ok () ∧
      ((collectApps rootC1).map Item.getName).Nodup ∧
      "B" ∈ oldAppsC1.map Item.getName ∧
      "B" ∉ (collectApps rootC1).map Item.getName := by
  have hc : collectApps rootC1 = [.app 0 "c1" "A", .app 0 "c3" "C"] := by
    simp [rootC1, collectApps, collectAppsList]
  refine ⟨?_, ?_, ?_, ?_⟩
  · simp [verifyRoot, hc, oldAppsC1, uniq, Item.getName]
  · rw [hc]; decide
  · simp [oldAppsC1, Item.getName]
  · rw [hc]; decide

/-- A compact interchange item of tiny.ts: either a bare App name or a
`[folderName, appNames]` pair (`TinyApp | TinyFolder`). -/
inductive TinyItem where
  | app (name : String)
  | folder (name : String) (apps : List String)
deriving DecidableEq, Repr

/-- A compact page: `TinyPage = TinyItem[]`. -/
abbrev TinyPage := List TinyItem

/-- The compact root: `TinyRoot = TinyPage[]`. -/
abbrev TinyRoot := List TinyPage

/-- Decode failure of tiny.ts: the `assert(Boolean(app), 'app ... not found')`
raised when a name has no entry in the caller-supplied index. -/
inductive DecodeError where
  | nameNotFound (name : String)
deriving DecidableEq, Repr

/-- `associateWith(apps, 'name')` followed by indexing: the last app in the
list with the given name wins, `none` when absent. -/
def appByName (apps : List Item) (n : String) : Option Item :=
  apps.foldl (fun acc a => if Item.getName a = n then some a else acc) none

/-- Resolution of a folder's name list in `tinyToRoot`: look every name up in
the index, failing at the first miss (left to right). -/
def decodeAppList (apps : List Item) : List String → Except DecodeError (List Item)
  | [] => .ok []
  | n :: ns =>
    match appByName apps n with
    | none => .error (.nameNotFound n)
    | some a =>
      match decodeAppList apps ns with
      | .error e => .error e
      | .ok rest => .ok (a :: rest)

/-- Decoding of one compact item in `tinyToRoot` (current tiny.ts, the
variant importing the `App/Page/Folder` model of db.ts): a compact folder
becomes a Folder with identity 0 holding a single Page with identity 0; a
bare name resolves to the index's App object, returned as stored there. -/
def decodeTinyItem (apps : List Item) : TinyItem → Except DecodeError Item
  | .folder fname fapps =>
    match decodeAppList apps fapps with
    | .error e => .error e
    | .ok resolved => .ok (.folder 0 fname [.page 0 resolved])
  | .app n =>
    match appByName apps n with
    | none => .error (.nameNotFound n)
    | some a => .ok a

/-- Decoding of a compact page's item list, left to right. -/
def decodeTinyPage (apps : List Item) : List TinyItem → Except DecodeError (List Item)
  | [] => .ok []
  | ti :: tis =>
    match decodeTinyItem apps ti with
    | .error e => .error e
    | .ok it =>
      match decodeTinyPage apps tis with
      | .error e => .error e
      | .ok rest => .ok (it :: rest)

/-- Decoding of the page list: each compact page becomes a Page with
identity 0. -/
def decodePages (apps : List Item) : List TinyPage → Except DecodeError (List Item)
  | [] => .ok []
  | pg :: pgs =>
    match decodeTinyPage apps pg with
    | .error e => .error e
    | .ok items =>
      match decodePages apps pgs with
      | .error e => .error e
      | .ok rest => .ok (.page 0 items :: rest)

/-- `tinyToRoot` of tiny.ts: decode the compact tree against the
caller-supplied name index, producing a root Folder with identity 1 and name
"root". -/
def tinyToRoot (apps : List Item) (tiny : TinyRoot) : Except DecodeError Item :=
  match decodePages apps tiny with
  | .error e => .error e
  | .ok pages => .ok (.folder 1 "root" pages)

/-- `toTinyFolder` of tiny.ts: the folder's name, with the app names of all
of its pages concatenated in page order (`children.map(page =>
page.children.map(app => app.name)).flat()`). -/
def toTinyFolder (f : Item) : TinyItem :=
  .folder (Item.getName f)
    ((f.childList.map (fun pg => pg.childList.map Item.getName)).flatten)

/-- `toTinyPage` of tiny.ts: apps become bare names, anything else goes
through `toTinyFolder`. -/
def toTinyPage (p : Item) : TinyPage :=
  p.childList.map (fun it =>
    match it with
    | .app _ _ n => .app n
    | other => toTinyFolder other)

/-- `toTinyRoot` of tiny.ts: encode each child of the root as a compact
page. -/
def toTinyRoot (root : Item) : TinyRoot :=
  root.childList.map toTinyPage

theorem appByName_aux {n : String} {a : Item} :
    ∀ {l : List Item} {acc : Option Item},
      l.foldl (fun acc x => if Item.getName x = n then some x else acc) acc = some a →
      a ∈ l ∨ acc = some a := by
  intro l
  induction l with
  | nil => intro acc h; exact .inr h
  | cons x xs ih =>
    intro acc h
    simp only [List.foldl_cons] at h
    rcases ih h with h' | h'
    · exact .inl (List.mem_cons_of_mem _ h')
    · by_cases hx : Item.getName x = n
      · rw [if_pos hx] at h'
        exact .inl (Option.some_injective _ h' ▸ List.mem_cons_self _ _)
      · rw [if_neg hx] at h'
        exact .inr h'

theorem appByName_mem {apps : List Item} {n : String} {a : Item}
    (h : appByName apps n = some a) : a ∈ apps := by
  rcases appByName_aux h with h' | h'
  · exact h'
  · exact Option.noConfusion h'

theorem decodeAppList_mem {apps : List Item} :
    ∀ {ns : List String} {l : List Item}, decodeAppList apps ns = .ok l →
      ∀ a ∈ l, a ∈ apps := by
  intro ns
  induction ns with
  | nil =>
    intro l h a ha
    simp only [decodeAppList] at h
    cases h
    cases ha
  | cons n ns ih =>
    intro l h a ha
    simp only [decodeAppList] at h
    cases hb : appByName apps n with
    | none => rw [hb] at h; cases h
    | some x =>
      rw [hb] at h
      cases hr : decodeAppList apps ns with
      | error e => rw [hr] at h; cases h
      | ok rest =>
        rw [hr] at h
        cases h
        rcases List.mem_cons.mp ha with h' | h'
        · exact h' ▸ appByName_mem hb
        · exact ih hr a h'

/-- Shape of a successfully decoded compact item: either an app taken
verbatim from the index, or a folder with identity 0 holding one page with
identity 0 whose children come from the index. -/
theorem decodeTinyItem_shape {apps : List Item} {ti : TinyItem} {it : Item}
    (h : decodeTinyItem apps ti = .ok it) :
    it ∈ apps ∨
      ∃ fname resolved, it = .folder 0 fname [.page 0 resolved] ∧
        ∀ a ∈ resolved, a ∈ apps := by
  cases ti with
  | app n =>
    simp only [decodeTinyItem] at h
    cases hb : appByName apps n with
    | none => rw [hb] at h; cases h
    | some x => rw [hb] at h; cases h; exact .inl (appByName_mem hb)
  | folder fname fapps =>
    simp only [decodeTinyItem] at h
    cases hr : decodeAppList apps fapps with
    | error e => rw [hr] at h; cases h
    | ok resolved =>
      rw [hr] at h
      cases h
      exact .inr ⟨fname, resolved, rfl, decodeAppList_mem hr⟩

theorem decodeTinyPage_shape {apps : List Item} :
    ∀ {tis : List TinyItem} {items : List Item},
      decodeTinyPage apps tis = .ok items →
      ∀ it ∈ items, it ∈ apps ∨
        ∃ fname resolved, it = .folder 0 fname [.page 0 resolved] ∧
          ∀ a ∈ resolved, a ∈ apps := by
  intro tis
  induction tis with
  | nil => intro items h it hit; cases h; cases hit
  | cons ti tis ih =>
    intro items h it hit
    simp only [decodeTinyPage] at h
    cases h1 : decodeTinyItem apps ti with
    | error e => rw [h1] at h; cases h
    | ok x =>
      rw [h1] at h
      cases h2 : decodeTinyPage apps tis with
      | error e => rw [h2] at h; cases h
      | ok rest =>
        rw [h2] at h
        cases h
        rcases List.mem_cons.mp hit with h' | h'
        · exact h' ▸ decodeTinyItem_shape h1
        · exact ih h2 it h'

theorem decodePages_shape {apps : List Item} :
    ∀ {tiny : List TinyPage} {pages : List Item},
      decodePages apps tiny = .ok pages →
      ∀ p ∈ pages, ∃ items, p = .page 0 items ∧
        ∀ it ∈ items, it ∈ apps ∨
          ∃ fname resolved, it = .folder 0 fname [.page 0 resolved] ∧
            ∀ a ∈ resolved, a ∈ apps := by
  intro tiny
  induction tiny with
  | nil => intro pages h p hp; cases h; cases hp
  | cons pg pgs ih =>
    intro pages h p hp
    simp only [decodePages] at h
    cases h1 : decodeTinyPage apps pg with
    | error e => rw [h1] at h; cases h
    | ok items =>
      rw [h1] at h
      cases h2 : decodePages apps pgs with
      | error e => rw [h2] at h; cases h
      | ok rest =>
        rw [h2] at h
        cases h
        rcases List.mem_cons.mp hp with h' | h'
        · exact ⟨items, h', decodeTinyPage_shape h1⟩
        · exact ih h2 p h'

theorem mem_subItemsList {n : Item} :
    ∀ {l : List Item}, n ∈ subItemsList l ↔ ∃ c ∈ l, n = c ∨ n ∈ subItems c := by
  intro l
  induction l with
  | nil => simp [subItemsList]
  | cons c cs ih =>
    simp only [subItemsList, List.mem_cons, List.mem_append, ih]
    constructor
    · rintro (h | h | h)
      · exact ⟨c, .inl rfl, .inl h⟩
      · exact ⟨c, .inl rfl, .inr h⟩
      · rcases h with ⟨d, hd, hn⟩
        exact ⟨d, .inr hd, hn⟩
    · rintro ⟨d, hd | hd, hn⟩
      · subst hd
        rcases hn with hn | hn
        · exact .inl hn
        · exact .inr (.inl hn)
      · exact .inr (.inr ⟨d, hd, hn⟩)

theorem subItems_of_app {a : Item} (h : a.isGroup = false) : subItems a = [] := by
  cases a with
  | app i b n => simp [subItems]
  | page i ch => simp [Item.isGroup] at h
  | folder i nm ch => simp [Item.isGroup] at h

/-- C2 (amended): in a tree decoded by `tinyToRoot` against an index of app
nodes, every group node (Page or Folder) below the root carries identity 0,
while every app node is taken verbatim from the caller-supplied index and so
keeps whatever identity the index stores for it. -/
theorem tinyToRoot_identities {apps : List Item} {tiny : TinyRoot} {r : Item}
    (happs : ∀ a ∈ apps, a.isGroup = false)
    (h : tinyToRoot apps tiny = .ok r) :
    ∀ n ∈ subItems r,
      (n.isGroup = true → n.itemId = 0) ∧ (n.isGroup = false → n ∈ apps) := by
  intro n hn
  simp only [tinyToRoot] at h
  cases hp : decodePages apps tiny with
  | error e => rw [hp] at h; cases h
  | ok pages =>
    rw [hp] at h
    cases h
    have hshape := decodePages_shape hp
    simp only [subItems] at hn
    rcases mem_subItemsList.mp hn with ⟨p, hpmem, hnp⟩
    rcases hshape p hpmem with ⟨items, hpeq, hitems⟩
    subst hpeq
    rcases hnp with hnp | hnp
    · subst hnp
      exact ⟨fun _ => rfl, fun hfalse => by simp [Item.isGroup] at hfalse⟩
    · simp only [subItems] at hnp
      rcases mem_subItemsList.mp hnp with ⟨it, hitmem, hnit⟩
      rcases hitems it hitmem with hit | ⟨fname, resolved, hiteq, hres⟩
      · have hflat := happs it hit
        rcases hnit with hnit | hnit
        · subst hnit
          exact ⟨fun hg => absurd hg (by simp [hflat]), fun _ => hit⟩
        · rw [subItems_of_app hflat] at hnit
          cases hnit
      · subst hiteq
        rcases hnit with hnit | hnit
        · subst hnit
          exact ⟨fun _ => rfl, fun hfalse => by simp [Item.isGroup] at hfalse⟩
        · simp only [subItems, subItemsList, List.append_nil] at hnit
          rcases List.mem_cons.mp hnit with hnit | hnit
          · subst hnit
            exact ⟨fun _ => rfl, fun hfalse => by simp [Item.isGroup] at hfalse⟩
          · rcases mem_subItemsList.mp hnit with ⟨a, hamem, hna⟩
            have haapp := hres a hamem
            have hflat := happs a haapp
            rcases hna with hna | hna
            · subst hna
              exact ⟨fun hg => absurd hg (by simp [hflat]), fun _ => haapp⟩
            · rw [subItems_of_app hflat] at hna
              cases hna

/-- App index for the C2 theorems: one app whose stored identity is 5. -/
def appsC2 : List Item := [.app 5 "b" "A"]

/-- Compact tree for the C2 witness: one page holding one compact folder. -/
def tinyC2 : TinyRoot := [[.folder "F" ["A"]]]

/-- Decoded result for the C2 witness. -/
def rootC2 : Item := .folder 1 "root" [.page 0 [.folder 0 "F" [.page 0 [.app 5 "b" "A"]]]]

/-- Witness for the amended C2 theorem at a concrete decode. -/
theorem tinyToRoot_identities_witness :
    (∀ a ∈ appsC2, Item.isGroup a = false) ∧
      tinyToRoot appsC2 tinyC2 = .ok rootC2 ∧
      ∀ n ∈ subItems rootC2,
        (n.isGroup = true → n.itemId = 0) ∧ (n.isGroup = false → n ∈ appsC2) := by
  have h1 : ∀ a ∈ appsC2, Item.isGroup a = false := by
    intro a ha
    simp only [appsC2, List.mem_singleton] at ha
    simp [ha, Item.isGroup]
  have h2 : tinyToRoot appsC2 tinyC2 = .ok rootC2 := by
    simp [tinyToRoot, decodePages, decodeTinyPage, decodeTinyItem, decodeAppList,
      appByName, appsC2, tinyC2, rootC2, Item.getName]
  exact ⟨h1, h2, tinyToRoot_identities h1 h2⟩

/-- C2 counterexample: decoding a bare name against an index whose app
carries identity 5 yields a tree containing that app node with identity 5,
not the unassigned sentinel 0 — so not every node below the Root of a
decoded tree has identity 0. -/
theorem tinyToRoot_app_identity_not_reset :
    tinyToRoot appsC2 [[TinyItem.app "A"]] =
        .ok (.folder 1 "root" [.page 0 [.app 5 "b" "A"]]) ∧
      Item.app 5 "b" "A" ∈ subItems (Item.folder 1 "root" [.page 0 [.app 5 "b" "A"]]) ∧
      (Item.app 5 "b" "A").itemId ≠ 0 := by
  refine ⟨?_, ?_, ?_⟩
  · simp [tinyToRoot, decodePages, decodeTinyPage, decodeTinyItem,
      appByName, appsC2, Item.getName]
  · have hp : Item.app 5 "b" "A" ∈ subItems (Item.page 0 [Item.app 5 "b" "A"]) := by
      simp only [subItems]
      exact mem_subItemsList.mpr ⟨_, List.mem_singleton_self _, .inl rfl⟩
    simp only [subItems]
    exact mem_subItemsList.mpr ⟨_, List.mem_singleton_self _, .inr hp⟩
  · decide

theorem collectAppsList_all_apps :
    ∀ {l : List Item}, (∀ c ∈ l, ∃ ai b an, c = Item.app ai b an) →
      collectAppsList l = l := by
  intro l
  induction l with
  | nil => intro _; simp [collectAppsList]
  | cons c cs ih =>
    intro h
    rcases h c (List.mem_cons_self _ _) with ⟨ai, b, an, hc⟩
    subst hc
    simp only [collectAppsList, List.singleton_append, List.cons.injEq, true_and]
    exact ih (fun d hd => h d (List.mem_cons_of_mem _ hd))

/-- C4 (amended): for a Folder whose Pages hold only Apps, `toTinyFolder`
encodes the folder name together with the app names of all of its Pages,
concatenated in page order — exactly the names of `collectApps` of the
folder, not only the leading Page's. -/
theorem toTinyFolder_all_pages (i : Nat) (nm : String) (pages : List Item)
    (h : ∀ pg ∈ pages, ∃ j ch, pg = Item.page j ch ∧
      ∀ c ∈ ch, ∃ ai b an, c = Item.app ai b an) :
    toTinyFolder (.folder i nm pages) =
      .folder nm ((collectApps (.folder i nm pages)).map Item.getName) := by
  simp only [toTinyFolder, Item.getName, Item.childList, collectApps]
  congr 1
  induction pages with
  | nil => simp [collectAppsList]
  | cons pg pgs ih =>
    rcases h pg (List.mem_cons_self _ _) with ⟨j, ch, hpg, hch⟩
    subst hpg
    have hrest := ih (fun p hp => h p (List.mem_cons_of_mem _ hp))
    simp only [List.map_cons, List.flatten_cons, collectAppsList, Item.childList,
      List.map_append, hrest, collectAppsList_all_apps hch]

/-- Witness for the amended C4 theorem: a folder with two pages, whose
encoding keeps the app names of both pages. -/
theorem toTinyFolder_all_pages_witness :
    (∀ pg ∈ [Item.page 1 [Item.app 2 "x" "P"], Item.page 3 [Item.app 4 "y" "Q"]],
        ∃ j ch, pg = Item.page j ch ∧ ∀ c ∈ ch, ∃ ai b an, c = Item.app ai b an) ∧
      toTinyFolder (.folder 7 "G" [.page 1 [.app 2 "x" "P"], .page 3 [.app 4 "y" "Q"]]) =
        .folder "G"
          ((collectApps (.folder 7 "G"
            [.page 1 [.app 2 "x" "P"], .page 3 [.app 4 "y" "Q"]])).map Item.getName) := by
  have h : ∀ pg ∈ [Item.page 1 [Item.app 2 "x" "P"], Item.page 3 [Item.app 4 "y" "Q"]],
      ∃ j ch, pg = Item.page j ch ∧ ∀ c ∈ ch, ∃ ai b an, c = Item.app ai b an := by
    intro pg hpg
    rcases List.mem_cons.mp hpg with hpg | hpg
    · subst hpg
      refine ⟨1, _, rfl, ?_⟩
      intro c hc
      rcases List.mem_singleton.mp hc with rfl
      exact ⟨2, "x", "P", rfl⟩
    · rcases List.mem_singleton.mp hpg with rfl
      refine ⟨3, _, rfl, ?_⟩
      intro c hc
      rcases List.mem_singleton.mp hc with rfl
      exact ⟨4, "y", "Q", rfl⟩
  exact ⟨h, toTinyFolder_all_pages 7 "G" _ h⟩

/-- Folder for the C4 counterexample: two pages, app A on the first page and
app B on the second. -/
def folderC4 : Item := .folder 7 "F" [.page 8 [.app 9 "bA" "A"], .page 10 [.app 11 "bB" "B"]]

/-- Root for the C4 counterexample. -/
def rootC4 : Item := .folder 1 "root" [.page 2 [folderC4]]

/-- C4 counterexample: encoding a folder with two pages yields the name list
`["A", "B"]` — the app name B of the second page appears in the encoded
output, so the encoding is not restricted to the leading Page's names. -/
theorem toTinyRoot_keeps_second_page :
    toTinyRoot rootC4 = [[TinyItem.folder "F" ["A", "B"]]] ∧
      "B" ∈ (["A", "B"] : List String) ∧ (["A", "B"] : List String) ≠ ["A"] := by
  refine ⟨?_, by decide, by decide⟩
  simp [toTinyRoot, toTinyPage, toTinyFolder, rootC4, folderC4, Item.childList, Item.getName]

/-- The exception classes distinguished inside the retry loop of
`getLayoutResult` in ai.ts: `badJson` is a `SyntaxError` from `JSON.parse`,
`verifyFail` is a `VerifyError` from `verifyRoot`, and `decodeFail` is the
plain `Error` thrown by the `assert` in `tinyToRoot` when a name is missing
from the index. -/
inductive AttemptError where
  | badJson
  | decodeFail (e : DecodeError)
  | verifyFail (e : VerifyError)
deriving DecidableEq, Repr

/-- The body of one iteration of the retry loop in `getLayoutResult` of
ai.ts: parse the collaborator's response (`none` stands for a response that
is not valid JSON), decode it against the app index collected from the
original root, and verify the decoded tree against that index. -/
def attemptDecode (root : Item) (resp : Option TinyRoot) : Except AttemptError Item :=
  match resp with
  | none => .error .badJson
  | some tiny =>
    let apps := collectApps root
    match tinyToRoot apps tiny with
    | .error e => .error (.decodeFail e)
    | .ok newRoot =>
      match verifyRoot apps newRoot with
      | .error e => .error (.verifyFail e)
      | .ok _ => .ok newRoot

/-- The retry loop of `getLayoutResult` in ai.ts, with the collaborator's
successive responses supplied as the stream `responses` (the k-th attempt
consumes `responses k`). A `SyntaxError` or a `VerifyError` is caught and
the loop retries with the next response; any other exception — in
particular the decode assertion failure — is rethrown (`else { throw e; }`)
and propagates as `Except.error`. An exhausted budget returns `none`. -/
def getLayoutLoop (root : Item) (responses : Nat → Option TinyRoot) :
    Nat → Nat → Except DecodeError (Option Item)
  | _, 0 => .ok none
  | k, fuel + 1 =>
    match attemptDecode root (responses k) with
    | .ok t => .ok (some t)
    | .error .badJson => getLayoutLoop root responses (k + 1) fuel
    | .error (.verifyFail _) => getLayoutLoop root responses (k + 1) fuel
    | .error (.decodeFail e) => .error e

/-- `getLayoutResult` of ai.ts: the retry loop with a budget of 3 attempts. -/
def getLayoutResult (root : Item) (responses : Nat → Option TinyRoot) :
    Except DecodeError (Option Item) :=
  getLayoutLoop root responses 0 3

/-- C3 (amended): when decoding an attempt's response fails because a name in
the payload has no entry in the app index, the resulting error is not caught
by the retry loop: it is rethrown and propagates out of `getLayoutResult` to
the caller, with no further attempt made — only invalid-JSON and
verification failures are converted into corrective turns and retried. -/
theorem getLayoutLoop_decode_error_propagates (root : Item)
    (responses : Nat → Option TinyRoot) (k fuel : Nat) (e : DecodeError)
    (h : attemptDecode root (responses k) = .error (.decodeFail e)) :
    getLayoutLoop root responses k (fuel + 1) = .error e := by
  simp [getLayoutLoop, h]

/-- Root for the C3 concrete scenario: the launch surface has one app A. -/
def rootC3 : Item := .folder 1 "root" [.page 2 [.app 3 "b" "A"]]

/-- Response stream for the C3 scenario: the first response names an unknown
app B; every later response is a correct layout naming A. -/
def respC3 : Nat → Option TinyRoot :=
  fun k => if k = 0 then some [[TinyItem.app "B"]] else some [[TinyItem.app "A"]]

/-- Witness for the amended C3 theorem at the concrete scenario. -/
theorem getLayoutLoop_decode_error_witness :
    attemptDecode rootC3 (respC3 0) = .error (.decodeFail (.nameNotFound "B")) ∧
      getLayoutLoop rootC3 respC3 0 3 = .error (.nameNotFound "B") := by
  have h : attemptDecode rootC3 (respC3 0) = .error (.decodeFail (.nameNotFound "B")) := by
    simp [attemptDecode, respC3, rootC3, collectApps, collectAppsList, tinyToRoot,
      decodePages, decodeTinyPage, decodeTinyItem, appByName, Item.getName]
  exact ⟨h, getLayoutLoop_decode_error_propagates rootC3 respC3 0 2 (.nameNotFound "B") h⟩

/-- C3 counterexample: with the first response naming the unknown app B, the
missing-name failure escapes `getLayoutResult` as an error even though the
very next response would decode and verify successfully — the loop neither
converts the failure into a corrective message nor makes a further attempt. -/
theorem getLayoutResult_no_retry_on_decode_error :
    getLayoutResult rootC3 respC3 = .error (.nameNotFound "B") ∧
      attemptDecode rootC3 (respC3 1) = .ok (.folder 1 "root" [.page 0 [.app 3 "b" "A"]]) := by
  constructor
  · have h : attemptDecode rootC3 (respC3 0) = .error (.decodeFail (.nameNotFound "B")) := by
      simp [attemptDecode, respC3, rootC3, collectApps, collectAppsList, tinyToRoot,
        decodePages, decodeTinyPage, decodeTinyItem, appByName, Item.getName]
    simp [getLayoutResult, getLayoutLoop, h]
  · simp [attemptDecode, respC3, rootC3, collectApps, collectAppsList, tinyToRoot,
      decodePages, decodeTinyPage, decodeTinyItem, appByName, Item.getName,
      verifyRoot, uniq]

/-- `Operations.flatted` of operations.ts: a fresh root (identity 1) holding a
single page (identity 0) whose children are all the apps of the input tree in
document order. -/
def flatted (root : Item) : Item :=
  .folder 1 "root" [.page 0 (collectApps root)]

mutual
theorem collectApps_apps : (t : Item) → ∀ a ∈ collectApps t, ∃ i b n, a = Item.app i b n
  | .app i b n => by simp [collectApps]
  | .page i ch => by
    simpa only [collectApps] using collectAppsList_apps ch
  | .folder i nm ch => by
    simpa only [collectApps] using collectAppsList_apps ch

theorem collectAppsList_apps : (l : List Item) → ∀ a ∈ collectAppsList l, ∃ i b n, a = Item.app i b n
  | [] => by simp [collectAppsList]
  | c :: cs => by
    intro a ha
    cases c with
    | app i b n =>
      simp only [collectAppsList, List.singleton_append, List.mem_cons] at ha
      rcases ha with ha | ha
      · exact ⟨i, b, n, ha⟩
      · exact collectAppsList_apps cs a ha
    | page i ch =>
      simp only [collectAppsList, List.mem_append] at ha
      rcases ha with ha | ha
      · exact collectAppsList_apps ch a ha
      · exact collectAppsList_apps cs a ha
    | folder i nm ch =>
      simp only [collectAppsList, List.mem_append] at ha
      rcases ha with ha | ha
      · exact collectAppsList_apps ch a ha
      · exact collectAppsList_apps cs a ha
end

/-- C7: `flatted` yields a root with exactly one child Page, and collecting
the apps of the flattened tree gives back exactly the apps of the input tree
(even as a list, hence as a set: nothing lost, duplicated or invented). -/
theorem flatted_preserves_apps (root : Item) :
    collectApps (flatted root) = collectApps root ∧
      ∃ ch, flatted root = .folder 1 "root" [.page 0 ch] := by
  constructor
  · simp only [flatted, collectApps, collectAppsList, List.append_nil]
    exact collectAppsList_all_apps (collectApps_apps root)
  · exact ⟨collectApps root, rfl⟩

/-- The default comparator key of `Operations.sorted`: `item.name ?? ''`
pushed through the external pinyin transliteration, abstracted as the
parameter `py`. The comparator orders items by the string order of these
keys (`nameA < nameB ? -1 : nameA > nameB ? 1 : 0`). -/
def sortLe (py : String → String) (a b : Item) : Prop :=
  py (Item.getName a) ≤ py (Item.getName b)

instance sortLe.decRel (py : String → String) : DecidableRel (sortLe py) :=
  fun a b => inferInstanceAs (Decidable (_ ≤ _))

instance sortLe.total (py : String → String) : IsTotal Item (sortLe py) :=
  ⟨fun a b => le_total _ _⟩

instance sortLe.trans (py : String → String) : IsTrans Item (sortLe py) :=
  ⟨fun _ _ _ hab hbc => le_trans hab hbc⟩

mutual
/-- The effect of `Operations.sorted` of operations.ts on a node: the child
list of every group (the root by the explicit `root.children.sort(key)`, and
every nested group by the walker) is sorted by the default comparator. The
source sorts a group's children before recursing into them; since the
comparator only reads names, which the recursion preserves, sorting after
the recursion is the same list (`List.map_insertionSort`). -/
def sortedTree (py : String → String) : Item → Item
  | .app i b n => .app i b n
  | .page i ch => .page i ((sortedList py ch).insertionSort (sortLe py))
  | .folder i n ch => .folder i n ((sortedList py ch).insertionSort (sortLe py))

/-- Recursion of `sortedTree` over a child list. -/
def sortedList (py : String → String) : List Item → List Item
  | [] => []
  | c :: cs => sortedTree py c :: sortedList py cs
end

/-- `Operations.sorted` of operations.ts. Its optional comparator parameter
is immediately shadowed (`key = (a, b) => ...`) by the default pinyin
comparator before any sorting happens, so the caller's comparator is never
consulted and every child list is sorted with the default key. -/
def sorted (py : String → String) (key : Option (Item → Item → Int)) (root : Item) : Item :=
  sortedTree py root

theorem getName_sortedTree (py : String → String) (t : Item) :
    Item.getName (sortedTree py t) = Item.getName t := by
  cases t <;> simp [sortedTree, Item.getName]

theorem sortedList_eq_map (py : String → String) :
    ∀ l : List Item, sortedList py l = l.map (sortedTree py) := by
  intro l
  induction l with
  | nil => simp [sortedList]
  | cons c cs ih => simp [sortedList, ih]

mutual
theorem sortedTree_idem (py : String → String) :
    (t : Item) → sortedTree py (sortedTree py t) = sortedTree py t
  | .app i b n => by simp [sortedTree]
  | .page i ch => by
    have hch := sortedList_idem py ch
    simp only [sortedTree, Item.page.injEq, true_and]
    have hfix : sortedList py ((sortedList py ch).insertionSort (sortLe py)) =
        (sortedList py ch).insertionSort (sortLe py) := by
      rw [sortedList_eq_map]
      have helem : ∀ x ∈ (sortedList py ch).insertionSort (sortLe py),
          sortedTree py x = x := by
        intro x hx
        have hx' : x ∈ sortedList py ch := (List.mem_insertionSort _).mp hx
        rw [sortedList_eq_map] at hx'
        rcases List.mem_map.mp hx' with ⟨c, hc, rfl⟩
        exact hch c hc
      calc ((sortedList py ch).insertionSort (sortLe py)).map (sortedTree py)
          = ((sortedList py ch).insertionSort (sortLe py)).map id :=
            List.map_congr_left helem
        _ = (sortedList py ch).insertionSort (sortLe py) := List.map_id _
    rw [hfix, (List.sorted_insertionSort (sortLe py) _).insertionSort_eq]
  | .folder i nm ch => by
    have hch := sortedList_idem py ch
    simp only [sortedTree, Item.folder.injEq, true_and]
    have hfix : sortedList py ((sortedList py ch).insertionSort (sortLe py)) =
        (sortedList py ch).insertionSort (sortLe py) := by
      rw [sortedList_eq_map]
      have helem : ∀ x ∈ (sortedList py ch).insertionSort (sortLe py),
          sortedTree py x = x := by
        intro x hx
        have hx' : x ∈ sortedList py ch := (List.mem_insertionSort _).mp hx
        rw [sortedList_eq_map] at hx'
        rcases List.mem_map.mp hx' with ⟨c, hc, rfl⟩
        exact hch c hc
      calc ((sortedList py ch).insertionSort (sortLe py)).map (sortedTree py)
          = ((sortedList py ch).insertionSort (sortLe py)).map id :=
            List.map_congr_left helem
        _ = (sortedList py ch).insertionSort (sortLe py) := List.map_id _
    rw [hfix, (List.sorted_insertionSort (sortLe py) _).insertionSort_eq]

theorem sortedList_idem (py : String → String) :
    (l : List Item) → ∀ c ∈ l, sortedTree py (sortedTree py c) = sortedTree py c
  | [] => by intro c hc; cases hc
  | c :: cs => by
    intro d hd
    rcases List.mem_cons.mp hd with hd | hd
    · exact hd ▸ sortedTree_idem py c
    · exact sortedList_idem py cs d hd
end

/-- C8: `sorted` is idempotent — sorting an already-sorted tree (for any
comparator argument, which is ignored anyway) reproduces exactly the same
tree, with identical child ordering at every nesting level; ties (such as
Pages, whose key is the empty string) are kept stable. -/
theorem sorted_idempotent (py : String → String) (key : Option (Item → Item → Int))
    (t : Item) : sorted py key (sorted py key t) = sorted py key t :=
  sortedTree_idem py t

/-- C9: the comparator parameter of `sorted` is unconditionally overwritten
with the default pinyin comparator before any sorting takes place, so any
caller-supplied comparator produces exactly the tree of the no-argument
call. -/
theorem sorted_ignores_comparator (py : String → String) (k : Item → Item → Int)
    (t : Item) : sorted py (some k) t = sorted py none t := rfl

/-- A row of the `items` table (`RawItem` in db.ts). `flags` is `null` for
system rows (`typeof i.flags !== 'number'`). -/
structure RawItem where
  rowid : Nat
  uuid : String
  flags : Option Int
  type : Nat
  parent_id : Nat
  ordering : Nat
deriving DecidableEq, Repr

/-- A row of the `apps` table (`RawApp` in db.ts); the bookmark blob is kept
opaque. -/
structure RawApp where
  item_id : Nat
  title : String
  bundleid : String
  storeid : Option String
  category_id : Option Nat
  moddate : Option Int
  bookmark : Option String
deriving DecidableEq, Repr

/-- A row of the `groups` table (`RawGroup` in db.ts). -/
structure RawGroup where
  item_id : Nat
  category_id : Option Nat
  title : Option String
deriving DecidableEq, Repr

/-- A row of the `image_cache` table (`RawImageCache` in db.ts); raster blobs
kept opaque. -/
structure RawImageCache where
  item_id : Nat
  size_big : Nat
  size_mini : Nat
  image_data : String
  image_data_mini : String
deriving DecidableEq, Repr

/-- The in-memory snapshot of the store (`LaunchpadDB` in db.ts): the four
row collections plus the computed system boundary (`lastSystemItemId`, the
highest rowid among rows whose flags are not a number). The index maps of
the source are recomputed on demand by the lookup functions below. -/
structure LaunchpadDB where
  items : List RawItem
  apps : List RawApp
  groups : List RawGroup
  imageCaches : List RawImageCache
  lastSystemItemId : Nat
deriving DecidableEq, Repr

/-- `itemMap[k]` of db.ts: `associateWith(items, 'rowid')` keeps the last row
with a given key, so the lookup returns the last match. -/
def itemMap (db : LaunchpadDB) (k : Nat) : Option RawItem :=
  db.items.foldl (fun acc it => if it.rowid = k then some it else acc) none

/-- `groupMap[k]` of db.ts. -/
def groupMap (db : LaunchpadDB) (k : Nat) : Option RawGroup :=
  db.groups.foldl (fun acc g => if g.item_id = k then some g else acc) none

/-- `appMap[k]` of db.ts. -/
def appMap (db : LaunchpadDB) (k : Nat) : Option RawApp :=
  db.apps.foldl (fun acc a => if a.item_id = k then some a else acc) none

/-- Failure modes of `getRoot` of db.ts: the explicit `no such group` throw,
the implicit crashes on a missing root row or missing app row, the `unknown
item type` throw, and (as `tooDeep`) the stack overflow a cyclic parent
relation would produce in the source. -/
inductive BuildError where
  | tooDeep
  | noRootItem
  | noSuchGroup (id : Nat)
  | noSuchApp (id : Nat)
  | unknownType (t : Nat)
deriving DecidableEq, Repr

/-- The child-row comparator of `getRoot`: `(i1, i2) => i1.ordering -
i2.ordering`, ascending by ordering. -/
def ordLe (r1 r2 : RawItem) : Prop := r1.ordering ≤ r2.ordering

instance ordLe.decRel : DecidableRel ordLe :=
  fun r1 r2 => inferInstanceAs (Decidable (_ ≤ _))

instance ordLe.total : IsTotal RawItem ordLe := ⟨fun a b => Nat.le_total _ _⟩

instance ordLe.trans : IsTrans RawItem ordLe := ⟨fun _ _ _ hab hbc => Nat.le_trans hab hbc⟩

mutual
/-- `itemToGroup` of db.ts `getRoot`, with explicit recursion fuel standing
for the call stack (the source recurses unboundedly and would overflow on a
cyclic parent relation; `db.items.length + 1` fuel is enough for every
terminating source run, since a terminating run visits distinct rows along
any parent chain). The group row is fetched first (missing row: `no such
group`), the child rows with `parent_id = g.item_id` are filtered, sorted by
ordering and decoded, and the node is built per the row's type tag; the
folder name is the group title (`g.title!`, a bare non-null assertion in the
source, embedded as default ""). -/
def itemToGroup (db : LaunchpadDB) : Nat → RawItem → Except BuildError Item
  | 0, _ => .error .tooDeep
  | fuel + 1, item =>
    match groupMap db item.rowid with
    | none => .error (.noSuchGroup item.rowid)
    | some g =>
      let rows := (db.items.filter (fun i => i.parent_id = g.item_id)).insertionSort ordLe
      match buildChildren db fuel rows with
      | .error e => .error e
      | .ok children =>
        if item.type = 1 ∨ item.type = 2 then
          .ok (.folder item.rowid (g.title.getD "") children)
        else if item.type = 3 then
          .ok (.page item.rowid children)
        else if item.type = 4 then
          match appMap db item.rowid with
          | none => .error (.noSuchApp item.rowid)
          | some a => .ok (.app item.rowid a.bundleid a.title)
        else
          .error (.unknownType item.type)
termination_by fuel _ => (fuel, 0)

/-- The child-row mapping of `itemToGroup`: rows at or below the system
boundary map to null (dropped), Page/Folder rows recurse, App rows resolve
their app metadata (a missing app row crashes the source), and unrecognized
type tags map to null (dropped). -/
def buildChildren (db : LaunchpadDB) : Nat → List RawItem → Except BuildError (List Item)
  | _, [] => .ok []
  | fuel, r :: rs =>
    if r.rowid ≤ db.lastSystemItemId then
      buildChildren db fuel rs
    else if r.type = 3 ∨ r.type = 2 then
      match itemToGroup db fuel r with
      | .error e => .error e
      | .ok t =>
        match buildChildren db fuel rs with
        | .error e => .error e
        | .ok rest => .ok (t :: rest)
    else if r.type = 4 then
      match appMap db r.rowid with
      | none => .error (.noSuchApp r.rowid)
      | some a =>
        match buildChildren db fuel rs with
        | .error e => .error e
        | .ok rest => .ok (.app r.rowid a.bundleid a.title :: rest)
    else
      buildChildren db fuel rs
termination_by fuel l => (fuel, l.length + 1)
end

/-- `getRoot` of db.ts: decode the tree starting at the row with rowid 1
(`itemMap[1]`; a missing root row crashes the source). -/
def getRoot (db : LaunchpadDB) : Except BuildError Item :=
  match itemMap db 1 with
  | none => .error .noRootItem
  | some r => itemToGroup db (db.items.length + 1) r

/-- Failure modes of `applyRoot` of db.ts: a failed rebuild of the current
tree, the defensive `verifyRoot` throw, and the crash of the walker when an
existing item has no matching group row (`groupMap[item.id].title` on
`undefined`). -/
inductive ApplyError where
  | build (e : BuildError)
  | verify (e : VerifyError)
  | missingGroup (id : Nat)
deriving DecidableEq, Repr

/-- The mutable state threaded through the walk of `applyRoot`: the next-id
counter, the two pending write sets, and — as instrumentation recording the
`nextId++` assignments — the list of identities handed to nodes that carried
the unassigned sentinel. -/
structure WalkSt where
  nextId : Nat
  updateItems : List RawItem
  updateGroups : List RawGroup
  created : List Nat
deriving DecidableEq, Repr

/-- The type tag written for a created item
(`{app: ItemType.App, folder: ItemType.Folder, page: ItemType.Page}[item.kind]`). -/
def itemTypeTag : Item → Nat
  | .app _ _ _ => 4
  | .folder _ _ _ => 2
  | .page _ _ => 3

/-- The group title written by the walker:
`item.kind === 'folder' ? item.name : null`. -/
def walkGroupTitle : Item → Option String
  | .folder _ n _ => some n
  | _ => none

theorem sizeOf_childList_le (it : Item) : sizeOf it.childList ≤ sizeOf it := by
  cases it <;> simp [Item.childList] <;> omega

mutual
/-- The walker body of `applyRoot` of db.ts applied to one node and, in
document order, its whole subtree. System items (`1 ≤ id ≤
lastSystemItemId`) are skipped (but still walked into); an id present in the
snapshot is updated in place (new parent and ordering, with the +1 ordering
offset under the root, and a refreshed group title for groups); any other id
is created: the unassigned sentinel 0 draws `nextId++`, a nonzero unknown id
is kept, and the new row gets a fresh uuid, flags 0, the type tag of its
kind, and the same parent/ordering rule, groups also getting a fresh group
row. The parent identity seen by children is the node's id after this step,
matching the in-place `item.id` mutation of the source. -/
def applyChild (db : LaunchpadDB) (uuidGen : Nat → String) (parentId index : Nat)
    (it : Item) (st : WalkSt) : Except ApplyError WalkSt :=
  if 1 ≤ it.itemId ∧ it.itemId ≤ db.lastSystemItemId then
    applyChildren db uuidGen it.itemId 0 it.childList st
  else
    let ordering := if parentId = 1 then index + 1 else index
    match itemMap db it.itemId with
    | some dbItem =>
      let st1 : WalkSt :=
        { st with
          updateItems := st.updateItems ++
            [{ dbItem with parent_id := parentId, ordering := ordering }] }
      if it.isGroup then
        match groupMap db it.itemId with
        | none => .error (.missingGroup it.itemId)
        | some g =>
          let st2 : WalkSt :=
            { st1 with
              updateGroups := st1.updateGroups ++ [{ g with title := walkGroupTitle it }] }
          applyChildren db uuidGen it.itemId 0 it.childList st2
      else
        applyChildren db uuidGen it.itemId 0 it.childList st1
    | none =>
      let newId := if it.itemId = 0 then st.nextId else it.itemId
      let newRow : RawItem :=
        { rowid := newId
          uuid := uuidGen newId
          flags := some 0
          type := itemTypeTag it
          parent_id := parentId
          ordering := ordering }
      let st1 : WalkSt :=
        { nextId := if it.itemId = 0 then st.nextId + 1 else st.nextId
          updateItems := st.updateItems ++ [newRow]
          updateGroups := st.updateGroups ++
            (if it.isGroup then
              [{ item_id := newId, category_id := none, title := walkGroupTitle it }]
            else [])
          created := st.created ++ (if it.itemId = 0 then [st.nextId] else []) }
      applyChildren db uuidGen newId 0 it.childList st1
termination_by (sizeOf it, 1)
decreasing_by
  all_goals simp_wf
  all_goals
    rcases Nat.lt_or_ge (sizeOf it.childList) (sizeOf it) with hlt | hge
    · exact Prod.Lex.left _ _ hlt
    · have heq : sizeOf (Item.childList it) = sizeOf it :=
        Nat.le_antisymm (sizeOf_childList_le it) hge
      rw [heq]
      exact Prod.Lex.right _ (by omega)

/-- `walkGroup` iteration of `applyRoot`: each child is processed (itself and
its subtree) before its next sibling, with its index among siblings. -/
def applyChildren (db : LaunchpadDB) (uuidGen : Nat → String) (parentId index : Nat) :
    List Item → WalkSt → Except ApplyError WalkSt
  | [], st => .ok st
  | c :: cs, st =>
    match applyChild db uuidGen parentId index c st with
    | .error e => .error e
    | .ok st1 => applyChildren db uuidGen parentId (index + 1) cs st1
termination_by l _ => (sizeOf l, 0)
decreasing_by
  all_goals simp_wf
  all_goals exact Prod.Lex.left _ _ (by first
    | omega
    | (simp
       omega))
end

/-- `Math.max(...oldItems.map(item => item.rowid))` of `applyRoot`(over the
nonempty row sets of every run that reaches it). -/
def maxRowid (items : List RawItem) : Nat :=
  items.foldl (fun acc r => max acc r.rowid) 0

/-- The new table state produced by `applyRoot`: the delete-range plus
reinsert on `items` and `groups`, the verbatim rewrite of `apps` and
`image_cache`, and the recorded sentinel allocations. -/
structure ApplyResult where
  items : List RawItem
  groups : List RawGroup
  apps : List RawApp
  imageCaches : List RawImageCache
  created : List Nat
deriving DecidableEq, Repr

/-- `applyRoot` of db.ts: rebuild the current tree, defensively verify the
candidate against it, walk the candidate computing the update sets with the
next-id counter seeded one past the highest existing rowid, then delete all
item/group rows above the system boundary and reinsert the computed rows
(skipping any at or below the boundary), and copy `apps` and `image_cache`
through verbatim. -/
def applyRoot (uuidGen : Nat → String) (db : LaunchpadDB) (root : Item) :
    Except ApplyError ApplyResult :=
  match getRoot db with
  | .error e => .error (.build e)
  | .ok currentRoot =>
    match verifyRoot (collectApps currentRoot) root with
    | .error e => .error (.verify e)
    | .ok _ =>
      match applyChildren db uuidGen root.itemId 0 root.childList
          { nextId := maxRowid db.items + 1, updateItems := [],
            updateGroups := [], created := [] } with
      | .error e => .error e
      | .ok st =>
        .ok { items := db.items.filter (fun r => r.rowid ≤ db.lastSystemItemId) ++
                st.updateItems.filter (fun r => db.lastSystemItemId < r.rowid),
              groups := db.groups.filter (fun g => g.item_id ≤ db.lastSystemItemId) ++
                st.updateGroups.filter (fun g => db.lastSystemItemId < g.item_id),
              apps := db.apps,
              imageCaches := db.imageCaches,
              created := st.created }

theorem applyRoot_ok_inv (uuidGen : Nat → String) (db : LaunchpadDB) (root : Item)
    (out : ApplyResult) (h : applyRoot uuidGen db root = .ok out) :
    ∃ st, applyChildren db uuidGen root.itemId 0 root.childList
        { nextId := maxRowid db.items + 1, updateItems := [],
          updateGroups := [], created := [] } = .ok st ∧
      out.items = db.items.filter (fun r => r.rowid ≤ db.lastSystemItemId) ++
        st.updateItems.filter (fun r => db.lastSystemItemId < r.rowid) ∧
      out.groups = db.groups.filter (fun g => g.item_id ≤ db.lastSystemItemId) ++
        st.updateGroups.filter (fun g => db.lastSystemItemId < g.item_id) ∧
      out.apps = db.apps ∧ out.imageCaches = db.imageCaches ∧
      out.created = st.created := by
  simp only [applyRoot] at h
  split at h
  · exact Except.noConfusion h
  · split at h
    · exact Except.noConfusion h
    · split at h
      · exact Except.noConfusion h
      · next st hst =>
        cases h
        exact ⟨st, hst, rfl, rfl, rfl, rfl, rfl⟩

theorem filter_le_append_filter_gt {α : Type} (f : α → Nat) (bound : Nat) (A B : List α) :
    ((A.filter (fun r => f r ≤ bound)) ++ (B.filter (fun r => bound < f r))).filter
        (fun r => f r ≤ bound) =
      A.filter (fun r => f r ≤ bound) := by
  rw [List.filter_append]
  have h1 : (A.filter (fun r => f r ≤ bound)).filter (fun r => f r ≤ bound) =
      A.filter (fun r => f r ≤ bound) := by
    rw [List.filter_filter]
    apply List.filter_congr
    intro a _
    simp
  have h2 : (B.filter (fun r => bound < f r)).filter (fun r => f r ≤ bound) = [] := by
    rw [List.filter_filter]
    apply List.filter_eq_nil_iff.mpr
    intro a _
    simp only [Bool.and_eq_true, decide_eq_true_eq]
    omega
  rw [h1, h2, List.append_nil]

/-- C5: `applyRoot` leaves every item row and every group row at or below
the system boundary untouched: the rows at or below the boundary in the
resulting tables are exactly the rows at or below the boundary of the
snapshot, in order — such rows are excluded from the delete range, skipped
by the reinsert loops, and the walker never emits them with new data below
the boundary. -/
theorem applyRoot_preserves_system_rows (uuidGen : Nat → String) (db : LaunchpadDB)
    (root : Item) (out : ApplyResult) (h : applyRoot uuidGen db root = .ok out) :
    out.items.filter (fun r => r.rowid ≤ db.lastSystemItemId) =
        db.items.filter (fun r => r.rowid ≤ db.lastSystemItemId) ∧
      out.groups.filter (fun g => g.item_id ≤ db.lastSystemItemId) =
        db.groups.filter (fun g => g.item_id ≤ db.lastSystemItemId) := by
  obtain ⟨st, _, hitems, hgroups, _, _, _⟩ := applyRoot_ok_inv uuidGen db root out h
  constructor
  · rw [hitems]
    exact filter_le_append_filter_gt (fun r : RawItem => r.rowid) db.lastSystemItemId _ _
  · rw [hgroups]
    exact filter_le_append_filter_gt (fun g : RawGroup => g.item_id) db.lastSystemItemId _ _

mutual
theorem applyChild_created (db : LaunchpadDB) (uuidGen : Nat → String)
    (parentId index : Nat) (it : Item) (st st' : WalkSt)
    (h : applyChild db uuidGen parentId index it st = .ok st') :
    ∃ k, st'.nextId = st.nextId + k ∧
      st'.created = st.created ++ List.range' st.nextId k := by
  simp only [applyChild] at h
  repeat' split at h
  all_goals first
    | exact Except.noConfusion h
    | exact False.elim (by omega)
    | (obtain ⟨k, hk1, hk2⟩ := applyChildren_created db uuidGen _ 0 it.childList _ st' h
       first
         | exact ⟨k, hk1, hk2⟩
         | (have hk1a : st'.nextId = st.nextId + 1 + k := hk1
            have hk2a : st'.created =
                (st.created ++ [st.nextId]) ++ List.range' (st.nextId + 1) k := hk2
            refine ⟨k + 1, by omega, ?_⟩
            rw [hk2a, List.range'_succ]
            simp [List.append_assoc])
         | (have hk1b : st'.nextId = st.nextId + k := hk1
            have hk2b : st'.created = (st.created ++ []) ++ List.range' st.nextId k := hk2
            refine ⟨k, hk1b, ?_⟩
            rw [hk2b]
            simp))
termination_by (sizeOf it, 1)
decreasing_by
  all_goals simp_wf
  all_goals
    rcases Nat.lt_or_ge (sizeOf it.childList) (sizeOf it) with hlt | hge
    · exact Prod.Lex.left _ _ hlt
    · have heq2 : sizeOf (Item.childList it) = sizeOf it :=
        Nat.le_antisymm (sizeOf_childList_le it) hge
      rw [heq2]
      exact Prod.Lex.right _ (by omega)

theorem applyChildren_created (db : LaunchpadDB) (uuidGen : Nat → String)
    (parentId index : Nat) :
    (l : List Item) → (st st' : WalkSt) →
      applyChildren db uuidGen parentId index l st = .ok st' →
      ∃ k, st'.nextId = st.nextId + k ∧
        st'.created = st.created ++ List.range' st.nextId k
  | [], st, st', h => by
    simp only [applyChildren] at h
    cases h
    exact ⟨0, rfl, by simp⟩
  | c :: cs, st, st', h => by
    simp only [applyChildren] at h
    split at h
    · exact Except.noConfusion h
    · next st1 hc =>
      obtain ⟨k1, h11, h12⟩ := applyChild_created db uuidGen parentId index c st st1 hc
      obtain ⟨k2, h21, h22⟩ :=
        applyChildren_created db uuidGen parentId (index + 1) cs st1 st' h
      refine ⟨k1 + k2, by omega, ?_⟩
      have hr := List.range'_append st.nextId k1 k2 1
      rw [one_mul, Nat.add_comm k2 k1] at hr
      rw [h22, h12, h11, List.append_assoc, hr]
termination_by l _ _ _ => (sizeOf l, 0)
decreasing_by
  all_goals simp_wf
  all_goals exact Prod.Lex.left _ _ (by first
    | omega
    | (simp
       omega))
end

theorem maxRowid_aux :
    ∀ (l : List RawItem) (acc : Nat),
      acc ≤ l.foldl (fun a r => max a r.rowid) acc ∧
        ∀ r ∈ l, r.rowid ≤ l.foldl (fun a r => max a r.rowid) acc := by
  intro l
  induction l with
  | nil => intro acc; exact ⟨Nat.le_refl _, by intro r hr; cases hr⟩
  | cons x xs ih =>
    intro acc
    simp only [List.foldl_cons]
    obtain ⟨h1, h2⟩ := ih (max acc x.rowid)
    refine ⟨Nat.le_trans (Nat.le_max_left _ _) h1, ?_⟩
    intro r hr
    rcases List.mem_cons.mp hr with hr | hr
    · subst hr
      exact Nat.le_trans (Nat.le_max_right _ _) h1
    · exact h2 r hr

theorem le_maxRowid {items : List RawItem} {r : RawItem} (h : r ∈ items) :
    r.rowid ≤ maxRowid items :=
  (maxRowid_aux items 0).2 r h

/-- C6: within one `applyRoot` call, the identities handed to nodes carrying
the unassigned sentinel form the consecutive range starting one past the
highest rowid existing in the snapshot (the counter is seeded there and
incremented per allocation); consequently they are pairwise distinct and
each strictly greater than every pre-existing rowid. -/
theorem applyRoot_new_ids (uuidGen : Nat → String) (db : LaunchpadDB) (root : Item)
    (out : ApplyResult) (h : applyRoot uuidGen db root = .ok out) :
    (∃ k, out.created = List.range' (maxRowid db.items + 1) k) ∧
      out.created.Nodup ∧
      ∀ i ∈ out.created, ∀ r ∈ db.items, r.rowid < i := by
  obtain ⟨st, hw, _, _, _, _, hcreated⟩ := applyRoot_ok_inv uuidGen db root out h
  obtain ⟨k, _, hk2⟩ :=
    applyChildren_created db uuidGen root.itemId 0 root.childList _ st hw
  have hout : out.created = List.range' (maxRowid db.items + 1) k := by
    rw [hcreated, hk2]
    simp
  refine ⟨⟨k, hout⟩, ?_, ?_⟩
  · rw [hout]
    exact List.nodup_range' _ _
  · intro i hi r hr
    rw [hout] at hi
    rcases List.mem_range'.mp hi with ⟨j, _, hj⟩
    have := le_maxRowid hr
    omega

theorem itemMap_rowid_aux {k : Nat} {row : RawItem} :
    ∀ {l : List RawItem} {acc : Option RawItem},
      l.foldl (fun acc it => if it.rowid = k then some it else acc) acc = some row →
      row.rowid = k ∨ acc = some row := by
  intro l
  induction l with
  | nil => intro acc h; exact .inr h
  | cons x xs ih =>
    intro acc h
    simp only [List.foldl_cons] at h
    rcases ih h with h' | h'
    · exact .inl h'
    · by_cases hx : x.rowid = k
      · rw [if_pos hx] at h'
        exact .inl ((Option.some_injective _ h') ▸ hx)
      · rw [if_neg hx] at h'
        exact .inr h'

theorem itemMap_rowid {db : LaunchpadDB} {k : Nat} {row : RawItem}
    (h : itemMap db k = some row) : row.rowid = k := by
  rcases itemMap_rowid_aux h with h' | h'
  · exact h'
  · exact Option.noConfusion h'

mutual
theorem itemToGroup_ids (db : LaunchpadDB) :
    (fuel : Nat) → (item : RawItem) → (t : Item) →
      itemToGroup db fuel item = .ok t →
      t.itemId = item.rowid ∧ ∀ n ∈ subItems t, db.lastSystemItemId < n.itemId
  | 0, item, t, h => by
    simp only [itemToGroup] at h
    exact Except.noConfusion h
  | fuel + 1, item, t, h => by
    simp only [itemToGroup] at h
    split at h
    · exact Except.noConfusion h
    · split at h
      · exact Except.noConfusion h
      · next children hbc =>
        split at h
        · cases h
          refine ⟨rfl, ?_⟩
          simpa only [subItems] using buildChildren_ids db fuel _ children hbc
        · split at h
          · cases h
            refine ⟨rfl, ?_⟩
            simpa only [subItems] using buildChildren_ids db fuel _ children hbc
          · split at h
            · split at h
              · exact Except.noConfusion h
              · cases h
                refine ⟨rfl, ?_⟩
                intro n hn
                simp [subItems, subItemsList] at hn
            · exact Except.noConfusion h

theorem buildChildren_ids (db : LaunchpadDB) :
    (fuel : Nat) → (rows : List RawItem) → (l : List Item) →
      buildChildren db fuel rows = .ok l →
      ∀ n ∈ subItemsList l, db.lastSystemItemId < n.itemId
  | _, [], l, h => by
    simp only [buildChildren] at h
    cases h
    intro n hn
    simp [subItemsList] at hn
  | fuel, r :: rs, l, h => by
    simp only [buildChildren] at h
    split at h
    · exact buildChildren_ids db fuel rs l h
    · next hskip =>
      split at h
      · split at h
        · exact Except.noConfusion h
        · next t ht =>
          split at h
          · exact Except.noConfusion h
          · next rest hrest =>
            cases h
            intro n hn
            obtain ⟨hid, hsub⟩ := itemToGroup_ids db fuel r t ht
            simp only [subItemsList, List.mem_cons, List.mem_append] at hn
            rcases hn with hn | hn | hn
            · subst hn
              rw [hid]
              omega
            · exact hsub n hn
            · exact buildChildren_ids db fuel rs rest hrest n hn
      · split at h
        · split at h
          · exact Except.noConfusion h
          · next a ha =>
            split at h
            · exact Except.noConfusion h
            · next rest hrest =>
              cases h
              intro n hn
              simp only [subItemsList, List.mem_cons, List.mem_append] at hn
              rcases hn with hn | hn | hn
              · subst hn
                simp only [Item.itemId]
                omega
              · rw [subItems_of_app (by simp [Item.isGroup])] at hn
                cases hn
              · exact buildChildren_ids db fuel rs rest hrest n hn
        · exact buildChildren_ids db fuel rs l h
end

/-- C10: a tree rebuilt by `getRoot` has root identity 1 and contains no
other node with identity at or below the system boundary: rows at or below
the boundary are mapped to null and filtered out of every child list, so
every non-root node of a freshly rebuilt tree is a managed item. -/
theorem getRoot_system_filtered (db : LaunchpadDB) (r : Item)
    (h : getRoot db = .ok r) :
    r.itemId = 1 ∧ ∀ n ∈ subItems r, db.lastSystemItemId < n.itemId := by
  simp only [getRoot] at h
  split at h
  · exact Except.noConfusion h
  · next row hrow =>
    obtain ⟨hid, hsub⟩ := itemToGroup_ids db (db.items.length + 1) row r h
    exact ⟨hid.trans (itemMap_rowid hrow), hsub⟩

/-- Fixed uuid generator for the apply witnesses (`randomUUID` stub). -/
def uuidW : Nat → String := fun _ => "x"

/-- The root item row of the witness snapshots. -/
def rowW1 : RawItem :=
  { rowid := 1, uuid := "u1", flags := none, type := 1, parent_id := 0, ordering := 0 }

/-- The root group row of the witness snapshots. -/
def grpW1 : RawGroup := { item_id := 1, category_id := none, title := some "root" }

/-- Snapshot for the apply witnesses: just the system root row, boundary 1. -/
def dbW : LaunchpadDB :=
  { items := [rowW1], apps := [], groups := [grpW1], imageCaches := [], lastSystemItemId := 1 }

/-- Candidate tree for the apply witnesses: one new empty page. -/
def rootW : Item := .folder 1 "root" [.page 0 []]

/-- The item row created for the new page by the apply witnesses. -/
def rowW2 : RawItem :=
  { rowid := 2, uuid := "x", flags := some 0, type := 3, parent_id := 1, ordering := 1 }

/-- The group row created for the new page by the apply witnesses. -/
def grpW2 : RawGroup := { item_id := 2, category_id := none, title := none }

/-- Expected result of `applyRoot uuidW dbW rootW`. -/
def outW : ApplyResult :=
  { items := [rowW1, rowW2], groups := [grpW1, grpW2], apps := [], imageCaches := [],
    created := [2] }

theorem applyRoot_witness_eval : applyRoot uuidW dbW rootW = .ok outW := by
  simp [applyRoot, getRoot, itemMap, itemToGroup, groupMap, appMap, buildChildren,
    List.insertionSort, ordLe, verifyRoot, collectApps, collectAppsList, uniq,
    maxRowid, applyChildren, applyChild, Item.itemId, Item.childList, Item.isGroup,
    itemTypeTag, walkGroupTitle, dbW, rootW, uuidW, outW, rowW1, rowW2, grpW1, grpW2]

/-- Witness for the C5 theorem at a concrete apply run. -/
theorem applyRoot_preserves_system_rows_witness :
    applyRoot uuidW dbW rootW = .ok outW ∧
      outW.items.filter (fun r => r.rowid ≤ dbW.lastSystemItemId) =
        dbW.items.filter (fun r => r.rowid ≤ dbW.lastSystemItemId) ∧
      outW.groups.filter (fun g => g.item_id ≤ dbW.lastSystemItemId) =
        dbW.groups.filter (fun g => g.item_id ≤ dbW.lastSystemItemId) :=
  ⟨applyRoot_witness_eval,
    (applyRoot_preserves_system_rows uuidW dbW rootW outW applyRoot_witness_eval).1,
    (applyRoot_preserves_system_rows uuidW dbW rootW outW applyRoot_witness_eval).2⟩

/-- Witness for the C6 theorem at a concrete apply run: the one allocated
identity is 2, distinct and above every pre-existing rowid. -/
theorem applyRoot_new_ids_witness :
    applyRoot uuidW dbW rootW = .ok outW ∧
      outW.created.Nodup ∧
      ∀ i ∈ outW.created, ∀ r ∈ dbW.items, r.rowid < i :=
  ⟨applyRoot_witness_eval,
    (applyRoot_new_ids uuidW dbW rootW outW applyRoot_witness_eval).2.1,
    (applyRoot_new_ids uuidW dbW rootW outW applyRoot_witness_eval).2.2⟩

/-- App item row of the getRoot witness snapshot. -/
def rowX2 : RawItem :=
  { rowid := 2, uuid := "u2", flags := some 0, type := 4, parent_id := 1, ordering := 1 }

/-- App metadata row of the getRoot witness snapshot. -/
def appX2 : RawApp :=
  { item_id := 2, title := "T", bundleid := "bid", storeid := none, category_id := none,
    moddate := none, bookmark := none }

/-- Snapshot for the getRoot witness: the system root row plus one managed
app row, boundary 1. -/
def dbX : LaunchpadDB :=
  { items := [rowW1, rowX2], apps := [appX2], groups := [grpW1], imageCaches := [],
    lastSystemItemId := 1 }

theorem getRoot_witness_eval : getRoot dbX = .ok (.folder 1 "root" [.app 2 "bid" "T"]) := by
  simp [getRoot, itemMap, itemToGroup, groupMap, appMap, buildChildren,
    List.insertionSort, List.orderedInsert, ordLe, dbX, rowW1, rowX2, grpW1, appX2]

/-- Witness for the C10 theorem at a concrete rebuild. -/
theorem getRoot_system_filtered_witness :
    getRoot dbX = .ok (.folder 1 "root" [.app 2 "bid" "T"]) ∧
      (Item.folder 1 "root" [.app 2 "bid" "T"]).itemId = 1 ∧
      ∀ n ∈ subItems (Item.folder 1 "root" [.app 2 "bid" "T"]),
        dbX.lastSystemItemId < n.itemId :=
  ⟨getRoot_witness_eval,
    (getRoot_system_filtered dbX _ getRoot_witness_eval).1,
    (getRoot_system_filtered dbX _ getRoot_witness_eval).2⟩
